import Mathlib

/-
Verification of the nom-parse-trait decode layer (src/lib.rs) against its
specification. The library is a thin typed dispatch layer over the nom
parsing foundation; this development shallowly embeds the decode rules the
specification talks about:

  * inputs are modelled as lists of items (`List Char` for textual input,
    `List Nat` for raw-byte input); a decode step consumes a prefix and
    returns the remaining suffix, exactly as the nom `Input` capability does;
  * a decode outcome is `PResult`: success with the remainder, a structured
    nom error (`Err::Error` / `Err::Failure` / `Err::Incomplete`), or `panic`
    for the places where the Rust code aborts (explicit `panic!`, or an
    out-of-bounds `take_split`, which panics via `split_at`);
  * the integer rules mirror nom's `character::complete` sized-integer
    parsers, parameterized by the numeric range of the target type, with the
    overflow checks of `checked_mul`/`checked_add`/`checked_sub` made
    explicit;
  * the container rules mirror nom's `separated_list0` (nom 8 semantics:
    a recoverable element or separator error ends the repetition, a fatal
    one propagates, plus the zero-consumption `SeparatedList` guard), and
    the `[T; N]` rule mirrors the hand-written slot loop of the source,
    tracking slot initialization and the destructor calls of its failure
    path so that the cleanup obligations become provable statements.
-/

namespace NomParseTrait

/-- Error kinds used by the decode rules of the crate (a fragment of nom's
`ErrorKind` taxonomy). -/
inductive ErrorKind where
  | eof
  | digit
  | char
  | float
  | tag
  | crlf
  | separatedList
deriving DecidableEq

/-- Model of `nom::error::Error`: the remaining input at the point of failure
plus an error kind, as built by `from_error_kind`. -/
structure PError (ι : Type) where
  pos : ι
  kind : ErrorKind
deriving DecidableEq

/-- Model of `nom::Err`: recoverable error, fatal failure, or the streaming
"need more input" signal. -/
inductive NomErr (ι : Type) where
  | error (e : PError ι)
  | failure (e : PError ι)
  | incomplete
deriving DecidableEq

/-- Outcome of one `parse` call (`IResult`): success with remainder and value,
a `NomErr`, or a Rust panic (used where the source can abort). -/
inductive PResult (ι β : Type) where
  | ok (rest : ι) (val : β)
  | fail (e : NomErr ι)
  | panic
deriving DecidableEq

/-- Outcome of `parse_complete` (`Result<Self, E>`, or the documented panic on
`Incomplete`). -/
inductive CResult (ι β : Type) where
  | ok (val : β)
  | err (e : PError ι)
  | panic
deriving DecidableEq

/-- Model of `ParseFromExt::parse_complete` (src/lib.rs lines 63-70): run the
parser; a fully-consuming success returns the value, leftover input becomes an
`Eof` error at the remainder, `Incomplete` panics, and the payload of
`Err::Error`/`Err::Failure` is returned as-is. -/
def parse_complete {α β : Type} (p : List α → PResult (List α) β)
    (input : List α) : CResult (List α) β :=
  match p input with
  | .ok rest v => if rest.length = 0 then .ok v else .err ⟨rest, .eof⟩
  | .fail .incomplete => .panic
  | .fail (.error e) => .err e
  | .fail (.failure e) => .err e
  | .panic => .panic

/-- Value of a decimal digit character, as `char::to_digit(10)` computes it
(meaningful on `'0'..='9'`). -/
def dval (c : Char) : Nat := c.toNat - 48

/-- Model of `char::to_digit(10)`: `some` digit value on `'0'..='9'`, `none`
otherwise. -/
def digitv (c : Char) : Option Nat :=
  if c.isDigit then some (dval c) else none

/-- Digit-accumulation loop of nom's `character::complete` unsigned integer
parsers, for a target type with maximum value `mx`: fold decimal digits into
`value`, stopping before the first non-digit; a leading non-digit or an
accumulation step that leaves the type's range (the `checked_mul`/
`checked_add` failure) is a `Digit` error at the original input `orig`. -/
def uintGo (mx : Nat) (orig : List Char) : Nat → Nat → List Char → PResult (List Char) Nat
  | value, _, [] => .ok [] value
  | value, pos, c :: cs =>
    match digitv c with
    | none => if pos = 0 then .fail (.error ⟨orig, .digit⟩) else .ok (c :: cs) value
    | some d =>
      if mx < value * 10 + d then .fail (.error ⟨orig, .digit⟩)
      else uintGo mx orig (value * 10 + d) (pos + 1) cs

/-- Model of `nom::character::complete::u16/u32/u64/u128` (the decode rule the
`unsigned_parsable!` macro installs, src/lib.rs lines 95-111), with `mx` the
maximum value of the target type: empty input is a `Digit` error, otherwise
the digit run is accumulated by `uintGo`. -/
def uintParse (mx : Nat) (input : List Char) : PResult (List Char) Nat :=
  if input.length = 0 then .fail (.error ⟨input, .digit⟩)
  else uintGo mx input 0 0 input

/-- Model of nom's internal `sign` parser: an optional leading `-` or `+`;
returns the rest and `true` for non-negative. Never fails. -/
def signParse (input : List Char) : List Char × Bool :=
  match input with
  | [] => ([], true)
  | c :: rest =>
    if c = '-' then (rest, false)
    else if c = '+' then (rest, true)
    else (c :: rest, true)

/-- Positive-sign digit loop of nom's signed integer parsers (accumulation via
`checked_mul`/`checked_add` against the type maximum `mx`). -/
def sintPos (mx : Int) (orig : List Char) : Int → Nat → List Char → PResult (List Char) Int
  | value, _, [] => .ok [] value
  | value, pos, c :: cs =>
    match digitv c with
    | none => if pos = 0 then .fail (.error ⟨orig, .digit⟩) else .ok (c :: cs) value
    | some d =>
      if mx < value * 10 + (d : Int) then .fail (.error ⟨orig, .digit⟩)
      else sintPos mx orig (value * 10 + (d : Int)) (pos + 1) cs

/-- Negative-sign digit loop of nom's signed integer parsers (accumulation via
`checked_mul`/`checked_sub` against the type minimum `mn`; nom builds the
value by subtraction so that the most negative value is representable). -/
def sintNeg (mn : Int) (orig : List Char) : Int → Nat → List Char → PResult (List Char) Int
  | value, _, [] => .ok [] value
  | value, pos, c :: cs =>
    match digitv c with
    | none => if pos = 0 then .fail (.error ⟨orig, .digit⟩) else .ok (c :: cs) value
    | some d =>
      if value * 10 - (d : Int) < mn then .fail (.error ⟨orig, .digit⟩)
      else sintNeg mn orig (value * 10 - (d : Int)) (pos + 1) cs

/-- Model of `nom::character::complete::i8/i16/i32/i64/i128` (the decode rule
the `signed_parsable!` macro installs, src/lib.rs lines 113-130), with
`mn`/`mx` the range of the target type: optional sign, then a digit run whose
accumulation is range-checked; no digits after the sign is a `Digit` error at
the original input. -/
def signedParse (mn mx : Int) (input : List Char) : PResult (List Char) Int :=
  if (signParse input).1.length = 0 then .fail (.error ⟨input, .digit⟩)
  else if (signParse input).2 then sintPos mx input 0 0 (signParse input).1
  else sintNeg mn input 0 0 (signParse input).1

/-- All characters of `s` are decimal digits. -/
def allDigits (s : List Char) : Bool := s.all Char.isDigit

/-- Numeric value of a digit string appended to accumulator `a` (the ideal,
unchecked counterpart of `uintGo`). -/
def uval (a : Nat) (s : List Char) : Nat :=
  s.foldl (fun x c => x * 10 + dval c) a

/-- Integer counterpart of `uval` for the positive signed loop. -/
def ivalp (a : Int) (s : List Char) : Int :=
  s.foldl (fun x c => x * 10 + (dval c : Int)) a

/-- Integer value accumulated by the negative signed loop (digits subtracted). -/
def ivaln (a : Int) (s : List Char) : Int :=
  s.foldl (fun x c => x * 10 - (dval c : Int)) a

/-- Decimal digit characters of `v`, most significant first: the exact textual
form of an unsigned integer. -/
def natDecimal (v : Nat) : List Char :=
  if v = 0 then ['0'] else ((Nat.digits 10 v).map Nat.digitChar).reverse

/-- Exact textual form of a signed integer: a `-` sign followed by the digits
of the absolute value when negative. -/
def intDecimal (v : Int) : List Char :=
  if v < 0 then '-' :: natDecimal v.natAbs else natDecimal v.toNat

/-- Model of `Input::take_split(n)` at storage-unit granularity: items of the
input occupy `w`-many storage units each (UTF-8 bytes for `&str`, one byte
per item for `&[u8]`); splitting must land exactly on an item boundary within
the input, otherwise the Rust `split_at` underneath panics (`none`). -/
def splitAtUnits {α : Type} (w : α → Nat) : Nat → List α → Option (List α × List α)
  | 0, xs => some ([], xs)
  | _ + 1, [] => none
  | n + 1, x :: xs =>
    if w x ≤ n + 1 then
      match splitAtUnits w (n + 1 - w x) xs with
      | some p => some (x :: p.1, p.2)
      | none => none
    else none

/-- Model of the `char` decode rule (src/lib.rs lines 171-185), generic over
the input item type: read the head item (`Eof` error on empty input), decode
it with `AsChar::as_char` (`asChar`), then `take_split` the input at
`char.len()` storage units — the UTF-8 length of the DECODED character, with
item widths given by `w`. -/
def charParseG {α : Type} (asChar : α → Char) (w : α → Nat)
    (input : List α) : PResult (List α) Char :=
  match input with
  | [] => .fail (.error ⟨[], .eof⟩)
  | x :: xs =>
    match splitAtUnits w (asChar x).utf8Size (x :: xs) with
    | some p => .ok p.2 (asChar x)
    | none => .panic

/-- The `char` rule over textual input (`&str`): items are characters, each
`utf8Size` storage units wide. -/
def charParse : List Char → PResult (List Char) Char :=
  charParseG id Char.utf8Size

/-- The `char` rule over raw-byte input (`&[u8]`): items are bytes, one
storage unit each, and `AsChar for u8` decodes a byte as `self as char`. -/
def charParseBytes : List Nat → PResult (List Nat) Char :=
  charParseG (fun b => Char.ofNat b) (fun _ => 1)

/-- Model of the `u8` decode rule (src/lib.rs lines 188-208), generic over the
input item type with `AsBytes` given by `asBytes`: read the head item (`Eof`
error on empty input), require its byte representation to be exactly one byte
(`Char` error otherwise), then split off that byte and return it raw. -/
def u8Parse {α : Type} (asBytes : α → List Nat) (input : List α) : PResult (List α) Nat :=
  match input with
  | [] => .fail (.error ⟨[], .eof⟩)
  | x :: xs =>
    if (asBytes x).length = 1 then
      match splitAtUnits (fun y => (asBytes y).length) (asBytes x).length (x :: xs) with
      | some p => .ok p.2 (asBytes x).headI
      | none => .panic
    else .fail (.error ⟨x :: xs, .char⟩)

/-- The `u8` rule over raw-byte input (`&[u8]`): each item is one byte. -/
def u8ParseBytes : List Nat → PResult (List Nat) Nat :=
  u8Parse (fun b => [b])

/-- Horizontal whitespace, as nom's `space0` recognizes it. -/
def isHSpace (c : Char) : Bool := c = ' ' || c = '\t'

/-- Model of `nom::character::complete::space0`: drop the longest (possibly
empty) run of horizontal whitespace; never fails. -/
def space0 (input : List Char) : List Char := input.dropWhile isHSpace

/-- Model of `nom::bytes::complete::tag` for a one-character literal: consume
the character or fail with a `Tag` error at the current input. -/
def tagChar (t : Char) (input : List Char) : PResult (List Char) Unit :=
  match input with
  | c :: rest => if c = t then .ok rest () else .fail (.error ⟨c :: rest, .tag⟩)
  | [] => .fail (.error ⟨[], .tag⟩)

/-- The separator grammar of the `[T; N]` decode rule, the tuple parser
`(space0, tag(","), space0)` of src/lib.rs line 269: horizontal whitespace,
a comma, horizontal whitespace. -/
def sepParse (input : List Char) : PResult (List Char) Unit :=
  match tagChar ',' (space0 input) with
  | .ok r2 _ => .ok (space0 r2) ()
  | .fail e => .fail e
  | .panic => .panic

/-- The key/value separator of the `HashMap` decode rule, the tuple parser
`(space0, tag("="), space0)` of src/lib.rs line 252. -/
def eqParse (input : List Char) : PResult (List Char) Unit :=
  match tagChar '=' (space0 input) with
  | .ok r2 _ => .ok (space0 r2) ()
  | .fail e => .fail e
  | .panic => .panic

/-- Model of `nom::character::complete::line_ending`: a `"\n"` or `"\r\n"`
line break, `CrLf` error otherwise. -/
def lineEnding (input : List Char) : PResult (List Char) Unit :=
  match input with
  | '\n' :: rest => .ok rest ()
  | '\r' :: '\n' :: rest => .ok rest ()
  | _ => .fail (.error ⟨input, .crlf⟩)

/-- Loop of nom 8's `separated_list0` after the first element: try the
separator then an element; a recoverable (`Err::Error`) outcome of either
ends the repetition successfully at the pre-separator input with the
elements collected so far, a fatal or incomplete outcome propagates, and an
iteration that consumed nothing is the `SeparatedList` infinite-loop guard
error. `fuel` bounds the recursion: every continuing iteration of the real
loop strictly consumes input (its parsers return suffixes and zero
consumption trips the guard), so with the starting fuel of `separatedList0`
the `fuel = 0` sentinel is unreachable. -/
def sepLoop {α β : Type} (sep : List α → PResult (List α) Unit)
    (elem : List α → PResult (List α) β) :
    Nat → List β → List α → PResult (List α) (List β)
  | 0, _, _ => .panic
  | fuel + 1, acc, input =>
    match sep input with
    | .panic => .panic
    | .fail (.error _) => .ok input acc
    | .fail e => .fail e
    | .ok r1 _ =>
      match elem r1 with
      | .panic => .panic
      | .fail (.error _) => .ok input acc
      | .fail e => .fail e
      | .ok r2 v =>
        if r2.length = input.length then .fail (.error ⟨input, .separatedList⟩)
        else sepLoop sep elem fuel (acc ++ [v]) r2

/-- Model of `nom::multi::separated_list0`: a recoverable failure of the very
first element yields the empty list consuming nothing; a fatal or incomplete
one propagates; otherwise the separator/element loop runs. -/
def separatedList0 {α β : Type} (sep : List α → PResult (List α) Unit)
    (elem : List α → PResult (List α) β) (input : List α) :
    PResult (List α) (List β) :=
  match elem input with
  | .panic => .panic
  | .fail (.error _) => .ok input []
  | .fail e => .fail e
  | .ok r1 v => sepLoop sep elem (r1.length + 1) [v] r1

/-- Model of the `Vec<T>` decode rule (src/lib.rs lines 212-219):
`separated_list0(line_ending, T::parse)`. -/
def vecParse {β : Type} (elem : List Char → PResult (List Char) β) :
    List Char → PResult (List Char) (List β) :=
  separatedList0 lineEnding elem

/-- Insertion into the model of a `HashSet`: a duplicate element leaves the
set unchanged. -/
def setInsert {β : Type} [DecidableEq β] (s : List β) (v : β) : List β :=
  if v ∈ s then s else s ++ [v]

/-- Model of the `HashSet<T>` decode rule (src/lib.rs lines 223-236): the same
`separated_list0` collected into a set. -/
def hashSetParse {β : Type} [DecidableEq β] (elem : List Char → PResult (List Char) β)
    (input : List Char) : PResult (List Char) (List β) :=
  match separatedList0 lineEnding elem input with
  | .ok rest l => .ok rest (l.foldl setInsert [])
  | .fail e => .fail e
  | .panic => .panic

/-- Model of `nom::sequence::separated_pair(K::parse, (space0, tag("="),
space0), V::parse)`, the entry parser of the `HashMap` decode rule. -/
def pairParse {κ ν : Type} (kP : List Char → PResult (List Char) κ)
    (vP : List Char → PResult (List Char) ν) (input : List Char) :
    PResult (List Char) (κ × ν) :=
  match kP input with
  | .panic => .panic
  | .fail e => .fail e
  | .ok r1 k =>
    match eqParse r1 with
    | .panic => .panic
    | .fail e => .fail e
    | .ok r2 _ =>
      match vP r2 with
      | .panic => .panic
      | .fail e => .fail e
      | .ok r3 v => .ok r3 (k, v)

/-- Insertion into the model of a `HashMap`: a duplicate key overwrites the
earlier value (last write wins). -/
def mapUpsert {κ ν : Type} [DecidableEq κ] (m : List (κ × ν)) (p : κ × ν) :
    List (κ × ν) :=
  if m.any (fun q => q.1 = p.1) then m.map (fun q => if q.1 = p.1 then p else q)
  else m ++ [p]

/-- Model of the `HashMap<K, V>` decode rule (src/lib.rs lines 240-258):
`separated_list0(line_ending, separated_pair(...))` collected into a map. -/
def hashMapParse {κ ν : Type} [DecidableEq κ]
    (kP : List Char → PResult (List Char) κ) (vP : List Char → PResult (List Char) ν)
    (input : List Char) : PResult (List Char) (List (κ × ν)) :=
  match separatedList0 lineEnding (pairParse kP vP) input with
  | .ok rest l => .ok rest (l.foldl mapUpsert [])
  | .fail e => .fail e
  | .panic => .panic

/-- Outcome of the `[T; N]` decode rule with the resource accounting of its
failure path made explicit: on failure, `dropped` lists the already
constructed element values the cleanup loop `assume_init_drop`s, in slot
order; `ub` marks undefined behaviour (dropping a slot that was never
initialized, or finalizing one) — the embedding proves `ub` unreachable. -/
inductive ArrOut (ι β : Type) where
  | ok (rest : ι) (arr : List β)
  | fail (e : NomErr ι) (dropped : List β)
  | ub
  | panic
deriving DecidableEq

/-- Values of a list of `MaybeUninit` slots, `none` meaning uninitialized:
`some` of the slot values when every slot is initialized, `none` otherwise
(reading/dropping an uninitialized slot is undefined behaviour). -/
def listSome {β : Type} : List (Option β) → Option (List β)
  | [] => some []
  | none :: _ => none
  | some v :: rest =>
    match listSome rest with
    | some l => some (v :: l)
    | none => none

/-- Model of the failure-path cleanup `arr[0..i].iter_mut().for_each(|it|
it.assume_init_drop())` (src/lib.rs line 285): the values destroyed are
those of slots `0..i`; an uninitialized slot among them would be undefined
behaviour (`none`). -/
def cleanupDrops {β : Type} (slots : List (Option β)) (i : Nat) : Option (List β) :=
  listSome (slots.take i)

/-- The `for i in 1..N` loop of the `[T; N]` decode rule (src/lib.rs lines
275-290), with `fuel` the number of remaining iterations (`N - i`, a
compile-time count) and `i` the next slot: parse separator then element;
on success write slot `i` and continue; on any error, drop slots `0..i` and
propagate the error unchanged; after the last iteration, `assume_init` every
slot (`arr.map(|x| x.assume_init())`, line 292) to finalize the array. -/
def arrLoop {β : Type} (elemP : List Char → PResult (List Char) β)
    (slots : List (Option β)) (i : Nat) : Nat → List Char → ArrOut (List Char) β
  | 0, input =>
    match listSome slots with
    | some arr => .ok input arr
    | none => .ub
  | fuel + 1, input =>
    match sepParse input with
    | .panic => .panic
    | .fail e =>
      match cleanupDrops slots i with
      | some dropped => .fail e dropped
      | none => .ub
    | .ok r1 _ =>
      match elemP r1 with
      | .panic => .panic
      | .fail e =>
        match cleanupDrops slots i with
        | some dropped => .fail e dropped
        | none => .ub
      | .ok rest v => arrLoop elemP (slots.set i (some v)) (i + 1) fuel rest

/-- Model of the `[T; N]` decode rule (src/lib.rs lines 260-294): `N = 0`
succeeds immediately with the empty array consuming nothing; otherwise
element 0 is parsed directly (a failure there propagates with no slot to
clean up) and the separator/element loop fills slots `1..N`. -/
def arrayParse {β : Type} (elemP : List Char → PResult (List Char) β) :
    Nat → List Char → ArrOut (List Char) β
  | 0, input => .ok input []
  | m + 1, input =>
    match elemP input with
    | .panic => .panic
    | .fail e => .fail e []
    | .ok rest v =>
      arrLoop elemP ((List.replicate (m + 1) (none : Option β)).set 0 (some v)) 1 m rest

/-- Outcome of the reference decode trace `specArrayRun`: success with the
values in order, or failure carrying the values already decoded before the
failing step together with the original error. -/
inductive RunOut (ι β : Type) where
  | ok (rest : ι) (vals : List β)
  | fail (vals : List β) (e : NomErr ι)
  | panic
deriving DecidableEq

/-- Reference trace of the fixed-size aggregate grammar as the specification
states it (spec section 4.5), for the slots `1..N`: repeat "separator then
element" `fuel` times, collecting values in order; the first failing step
aborts with the values decoded so far and the original error. -/
def specArrayLoop {β : Type} (elemP : List Char → PResult (List Char) β) :
    Nat → List Char → RunOut (List Char) β
  | 0, input => .ok input []
  | fuel + 1, input =>
    match sepParse input with
    | .panic => .panic
    | .fail e => .fail [] e
    | .ok r1 _ =>
      match elemP r1 with
      | .panic => .panic
      | .fail e => .fail [] e
      | .ok rest v =>
        match specArrayLoop elemP fuel rest with
        | .ok rest2 ws => .ok rest2 (v :: ws)
        | .fail ws e => .fail (v :: ws) e
        | .panic => .panic

/-- Reference trace of the fixed-size aggregate grammar (spec section 4.5):
`N = 0` is the empty aggregate consuming nothing; otherwise element 0 is
decoded directly with no leading separator, and each element `i` in `1..N`
is preceded by the separator grammar; the trace records the decoded values
in order, and on failure the values decoded before the failing step. -/
def specArrayRun {β : Type} (elemP : List Char → PResult (List Char) β) :
    Nat → List Char → RunOut (List Char) β
  | 0, input => .ok input []
  | m + 1, input =>
    match elemP input with
    | .panic => .panic
    | .fail e => .fail [] e
    | .ok rest v =>
      match specArrayLoop elemP m rest with
      | .ok rest2 ws => .ok rest2 (v :: ws)
      | .fail ws e => .fail (v :: ws) e
      | .panic => .panic

/-- C2: for every decode rule and every input, `parse_complete` returns the
value when the underlying parse succeeds with an empty remainder, and an
`Eof` error positioned at the start of the non-empty remainder otherwise —
never a partially-consuming success. -/
theorem parse_complete_full_consumption {α β : Type} (p : List α → PResult (List α) β)
    (input rest : List α) (v : β) (h : p input = .ok rest v) :
    parse_complete p input = if rest.length = 0 then .ok v else .err ⟨rest, .eof⟩ := by
  simp [parse_complete, h]

/-- Witness for C2: decoding one integer from `"123abc"` via `parse_complete`
fails with kind `Eof` at `"abc"`, while `"123"` is accepted. -/
theorem parse_complete_full_consumption_witness :
    parse_complete (uintParse 4294967295) ("123abc".toList) = .err ⟨"abc".toList, .eof⟩ ∧
    parse_complete (uintParse 4294967295) ("123".toList) = .ok 123 := by
  constructor
  · exact (parse_complete_full_consumption (uintParse 4294967295) ("123abc".toList)
      ("abc".toList) 123 (by decide)).trans (by decide)
  · exact (parse_complete_full_consumption (uintParse 4294967295) ("123".toList)
      [] 123 (by decide)).trans (by decide)

/-- C7: if the underlying parse reports the streaming `Incomplete` signal,
`parse_complete` panics rather than converting it into a success or a
recoverable error. -/
theorem parse_complete_incomplete_panics {α β : Type} (p : List α → PResult (List α) β)
    (input : List α) (h : p input = .fail .incomplete) :
    parse_complete p input = .panic := by
  simp [parse_complete, h]

/-- Witness for C7 at a concrete parser that reports `Incomplete`. -/
theorem parse_complete_incomplete_panics_witness :
    parse_complete (fun _ : List Char => (.fail .incomplete : PResult (List Char) Nat)) [] =
      .panic :=
  parse_complete_incomplete_panics (fun _ => .fail .incomplete) [] rfl

/-- C6: the `[T; 0]` decode rule succeeds immediately on any input with the
empty aggregate, consuming nothing — the returned remainder is the original
input. -/
theorem array_zero_consumes_nothing {β : Type} (elemP : List Char → PResult (List Char) β)
    (input : List Char) : arrayParse elemP 0 input = .ok input [] := rfl

/-- C10: the raw-byte decode rule fails with kind `Eof` (not `Char`) on empty
input; on non-empty input it returns the head byte when the head item
represents exactly one raw byte, and fails with kind `Char` exactly when it
does not. -/
theorem u8_eof_and_char_kinds {α : Type} (asBytes : α → List Nat) (x : α) (xs : List α) :
    u8Parse asBytes ([] : List α) = .fail (.error ⟨[], .eof⟩) ∧
    u8Parse asBytes (x :: xs) =
      (if (asBytes x).length = 1 then .ok xs (asBytes x).headI
       else .fail (.error ⟨x :: xs, .char⟩)) := by
  constructor
  · rfl
  · by_cases h : (asBytes x).length = 1
    · simp [u8Parse, h, splitAtUnits]
    · simp [u8Parse, h]

/-- C9 (failing input): over raw-byte input, the `char` decode rule takes
`take_split` at the UTF-8 length of the DECODED character instead of the
width of the consumed item: on `[0xC3, 0x28]` it consumes both bytes
(returning remainder `[]` where consuming one element would leave `[0x28]`),
and on `[0xC3]` alone `take_split(2)` runs out of input and panics. -/
theorem char_byte_input_overconsumes :
    charParseBytes [195, 40] = .ok [] (Char.ofNat 195) ∧
    charParseBytes [195] = .panic := by
  constructor
  · rfl
  · rfl

/-- Counterexample to C3 as stated: a `Vec` element decode fails (the integer
rule rejects `"x"` with a `Digit` error), yet the container does not
propagate it — `separated_list0` ends the repetition and succeeds with the
elements decoded so far. -/
theorem vec_swallows_element_error_cex :
    vecParse (uintParse 4294967295) ("1\nx".toList) = .ok ("\nx".toList) [1] ∧
    uintParse 4294967295 ("x".toList) = .fail (.error ⟨"x".toList, .digit⟩) := by
  constructor
  · rfl
  · rfl

/-- Counterexample to C4 as stated: the `u8` decode rule is the raw-byte read,
not a numeral parser, so `parse_complete` over the textual form of 5 (the
single byte 53, the code point of the character 5) yields the byte value 53,
not 5. -/
theorem u8_textual_roundtrip_cex :
    parse_complete u8ParseBytes ("5".toList.map Char.toNat) = .ok 53 ∧
    (CResult.ok 53 : CResult (List Nat) Nat) ≠ .ok 5 := by
  constructor
  · rfl
  · decide

theorem uval_nil (a : Nat) : uval a [] = a := rfl

theorem uval_cons (a : Nat) (c : Char) (s : List Char) :
    uval a (c :: s) = uval (a * 10 + dval c) s := rfl

theorem uval_append (a : Nat) (xs ys : List Char) :
    uval a (xs ++ ys) = uval (uval a xs) ys := by
  simp [uval, List.foldl_append]

/-- The unchecked accumulator never decreases. -/
theorem uval_le (s : List Char) : ∀ a : Nat, a ≤ uval a s := by
  induction s with
  | nil => intro a; simp [uval_nil]
  | cons c cs ih =>
    intro a
    rw [uval_cons]
    exact le_trans (by omega) (ih (a * 10 + dval c))

theorem allDigits_cons {c : Char} {s : List Char} (h : allDigits (c :: s) = true) :
    c.isDigit = true ∧ allDigits s = true := by
  simpa [allDigits] using h

/-- A digit run whose value already exceeds the range triggers the
`checked_mul`/`checked_add` failure inside the run, whatever follows it. -/
theorem uintGo_overflow (mx : Nat) (orig : List Char) :
    ∀ (s rest : List Char) (a pos : Nat), allDigits s = true → a ≤ mx → mx < uval a s →
      uintGo mx orig a pos (s ++ rest) = .fail (.error ⟨orig, .digit⟩) := by
  intro s
  induction s with
  | nil =>
    intro rest a pos _ h1 h2
    rw [uval_nil] at h2
    omega
  | cons c cs ih =>
    intro rest a pos hall h1 h2
    obtain ⟨hc, hcs⟩ := allDigits_cons hall
    rw [uval_cons] at h2
    by_cases hov : mx < a * 10 + dval c
    · simp [uintGo, digitv, hc, hov]
    · have hstep : uintGo mx orig a pos ((c :: cs) ++ rest) =
          uintGo mx orig (a * 10 + dval c) (pos + 1) (cs ++ rest) := by
        simp [uintGo, digitv, hc, hov]
      rw [hstep]
      exact ih rest (a * 10 + dval c) (pos + 1) hcs (by omega) h2

/-- An in-range digit run is consumed entirely and yields its value. -/
theorem uintGo_exact (mx : Nat) (orig : List Char) :
    ∀ (s : List Char) (a pos : Nat), allDigits s = true → uval a s ≤ mx →
      uintGo mx orig a pos s = .ok [] (uval a s) := by
  intro s
  induction s with
  | nil => intro a pos _ _; simp [uintGo, uval_nil]
  | cons c cs ih =>
    intro a pos hall h1
    obtain ⟨hc, hcs⟩ := allDigits_cons hall
    rw [uval_cons] at h1 ⊢
    have hov : ¬ mx < a * 10 + dval c := by
      have := uval_le cs (a * 10 + dval c)
      omega
    have hstep : uintGo mx orig a pos (c :: cs) =
        uintGo mx orig (a * 10 + dval c) (pos + 1) cs := by
      simp [uintGo, digitv, hc, hov]
    rw [hstep]
    exact ih (a * 10 + dval c) (pos + 1) hcs h1

theorem ivalp_nil (a : Int) : ivalp a [] = a := rfl

theorem ivalp_cons (a : Int) (c : Char) (s : List Char) :
    ivalp a (c :: s) = ivalp (a * 10 + (dval c : Int)) s := rfl

theorem ivaln_nil (a : Int) : ivaln a [] = a := rfl

theorem ivaln_cons (a : Int) (c : Char) (s : List Char) :
    ivaln a (c :: s) = ivaln (a * 10 - (dval c : Int)) s := rfl

/-- The positive signed accumulator never decreases and stays non-negative. -/
theorem ivalp_le (s : List Char) : ∀ a : Int, 0 ≤ a → a ≤ ivalp a s ∧ 0 ≤ ivalp a s := by
  induction s with
  | nil => intro a h; simp [ivalp_nil]; omega
  | cons c cs ih =>
    intro a h
    rw [ivalp_cons]
    have h0 : (0 : Int) ≤ (dval c : Int) := Int.ofNat_nonneg _
    have := ih (a * 10 + (dval c : Int)) (by omega)
    omega

/-- The negative signed accumulator never increases and stays non-positive. -/
theorem ivaln_ge (s : List Char) : ∀ a : Int, a ≤ 0 → ivaln a s ≤ a ∧ ivaln a s ≤ 0 := by
  induction s with
  | nil => intro a h; simp [ivaln_nil]; omega
  | cons c cs ih =>
    intro a h
    rw [ivaln_cons]
    have h0 : (0 : Int) ≤ (dval c : Int) := Int.ofNat_nonneg _
    have := ih (a * 10 - (dval c : Int)) (by omega)
    omega

theorem ivalp_natCast (s : List Char) : ∀ a : Nat, ivalp (a : Int) s = ((uval a s : Nat) : Int) := by
  induction s with
  | nil => intro a; rw [ivalp_nil, uval_nil]
  | cons c cs ih =>
    intro a
    rw [ivalp_cons, uval_cons, ← ih (a * 10 + dval c)]
    norm_cast

theorem ivaln_eq_neg_ivalp (s : List Char) : ∀ a : Int, ivaln a s = -(ivalp (-a) s) := by
  induction s with
  | nil => intro a; rw [ivaln_nil, ivalp_nil]; ring
  | cons c cs ih =>
    intro a
    have harg : -(a * 10 - (dval c : Int)) = -a * 10 + (dval c : Int) := by ring
    rw [ivaln_cons, ivalp_cons, ih, harg]

/-- Signed positive analogue of `uintGo_overflow`. -/
theorem sintPos_overflow (mx : Int) (orig : List Char) :
    ∀ (s rest : List Char) (a : Int) (pos : Nat), allDigits s = true →
      0 ≤ a → a ≤ mx → mx < ivalp a s →
      sintPos mx orig a pos (s ++ rest) = .fail (.error ⟨orig, .digit⟩) := by
  intro s
  induction s with
  | nil =>
    intro rest a pos _ _ h1 h2
    rw [ivalp_nil] at h2
    omega
  | cons c cs ih =>
    intro rest a pos hall ha h1 h2
    obtain ⟨hc, hcs⟩ := allDigits_cons hall
    rw [ivalp_cons] at h2
    have h0 : (0 : Int) ≤ (dval c : Int) := Int.ofNat_nonneg _
    by_cases hov : mx < a * 10 + (dval c : Int)
    · simp [sintPos, digitv, hc, hov]
    · have hstep : sintPos mx orig a pos ((c :: cs) ++ rest) =
          sintPos mx orig (a * 10 + (dval c : Int)) (pos + 1) (cs ++ rest) := by
        simp [sintPos, digitv, hc, hov]
      rw [hstep]
      exact ih rest (a * 10 + (dval c : Int)) (pos + 1) hcs (by omega) (by omega) h2

/-- Signed positive analogue of `uintGo_exact`. -/
theorem sintPos_exact (mx : Int) (orig : List Char) :
    ∀ (s : List Char) (a : Int) (pos : Nat), allDigits s = true → 0 ≤ a → ivalp a s ≤ mx →
      sintPos mx orig a pos s = .ok [] (ivalp a s) := by
  intro s
  induction s with
  | nil => intro a pos _ _ _; simp [sintPos, ivalp_nil]
  | cons c cs ih =>
    intro a pos hall ha h1
    obtain ⟨hc, hcs⟩ := allDigits_cons hall
    rw [ivalp_cons] at h1 ⊢
    have h0 : (0 : Int) ≤ (dval c : Int) := Int.ofNat_nonneg _
    have hmono := ivalp_le cs (a * 10 + (dval c : Int)) (by omega)
    have hov : ¬ mx < a * 10 + (dval c : Int) := by omega
    have hstep : sintPos mx orig a pos (c :: cs) =
        sintPos mx orig (a * 10 + (dval c : Int)) (pos + 1) cs := by
      simp [sintPos, digitv, hc, hov]
    rw [hstep]
    exact ih (a * 10 + (dval c : Int)) (pos + 1) hcs (by omega) h1

/-- Signed negative analogue of `uintGo_overflow` (range exit below the
minimum). -/
theorem sintNeg_overflow (mn : Int) (orig : List Char) :
    ∀ (s rest : List Char) (a : Int) (pos : Nat), allDigits s = true →
      a ≤ 0 → mn ≤ a → ivaln a s < mn →
      sintNeg mn orig a pos (s ++ rest) = .fail (.error ⟨orig, .digit⟩) := by
  intro s
  induction s with
  | nil =>
    intro rest a pos _ _ h1 h2
    rw [ivaln_nil] at h2
    omega
  | cons c cs ih =>
    intro rest a pos hall ha h1 h2
    obtain ⟨hc, hcs⟩ := allDigits_cons hall
    rw [ivaln_cons] at h2
    have h0 : (0 : Int) ≤ (dval c : Int) := Int.ofNat_nonneg _
    by_cases hov : a * 10 - (dval c : Int) < mn
    · simp [sintNeg, digitv, hc, hov]
    · have hstep : sintNeg mn orig a pos ((c :: cs) ++ rest) =
          sintNeg mn orig (a * 10 - (dval c : Int)) (pos + 1) (cs ++ rest) := by
        simp [sintNeg, digitv, hc, hov]
      rw [hstep]
      exact ih rest (a * 10 - (dval c : Int)) (pos + 1) hcs (by omega) (by omega) h2

/-- Signed negative analogue of `uintGo_exact`. -/
theorem sintNeg_exact (mn : Int) (orig : List Char) :
    ∀ (s : List Char) (a : Int) (pos : Nat), allDigits s = true → a ≤ 0 → mn ≤ ivaln a s →
      sintNeg mn orig a pos s = .ok [] (ivaln a s) := by
  intro s
  induction s with
  | nil => intro a pos _ _ _; simp [sintNeg, ivaln_nil]
  | cons c cs ih =>
    intro a pos hall ha h1
    obtain ⟨hc, hcs⟩ := allDigits_cons hall
    rw [ivaln_cons] at h1 ⊢
    have h0 : (0 : Int) ≤ (dval c : Int) := Int.ofNat_nonneg _
    have hmono := ivaln_ge cs (a * 10 - (dval c : Int)) (by omega)
    have hov : ¬ a * 10 - (dval c : Int) < mn := by omega
    have hstep : sintNeg mn orig a pos (c :: cs) =
        sintNeg mn orig (a * 10 - (dval c : Int)) (pos + 1) cs := by
      simp [sintNeg, digitv, hc, hov]
    rw [hstep]
    exact ih (a * 10 - (dval c : Int)) (pos + 1) hcs (by omega) h1

/-- The optional-sign parser consumes nothing when the head is a digit. -/
theorem signParse_headDigit (c : Char) (rest : List Char) (hc : c.isDigit = true) :
    signParse (c :: rest) = (c :: rest, true) := by
  have h1 : c ≠ '-' := by rintro rfl; exact absurd hc (by decide)
  have h2 : c ≠ '+' := by rintro rfl; exact absurd hc (by decide)
  simp [signParse, h1, h2]

theorem digitChar_isDigit : ∀ d : Nat, d < 10 → (Nat.digitChar d).isDigit = true := by decide

theorem dval_digitChar : ∀ d : Nat, d < 10 → dval (Nat.digitChar d) = d := by decide

theorem allDigits_natDecimal (v : Nat) : allDigits (natDecimal v) = true := by
  unfold natDecimal
  by_cases h : v = 0
  · simp [h]; decide
  · simp only [h, if_false, allDigits, List.all_eq_true]
    intro c hc
    rw [List.mem_reverse] at hc
    obtain ⟨d, hd, rfl⟩ := List.mem_map.mp hc
    exact digitChar_isDigit d (Nat.digits_lt_base (by norm_num) hd)

theorem natDecimal_ne_nil (v : Nat) : natDecimal v ≠ [] := by
  unfold natDecimal
  by_cases h : v = 0
  · simp [h]
  · simp [h, Nat.digits_ne_nil_iff_ne_zero]

theorem uval_digits (L : List Nat) :
    ∀ a : Nat, (∀ d ∈ L, d < 10) →
      uval a ((L.map Nat.digitChar).reverse) = a * 10 ^ L.length + Nat.ofDigits 10 L := by
  induction L with
  | nil => intro a _; simp [uval_nil, Nat.ofDigits_nil]
  | cons d L ih =>
    intro a hL
    have hd : d < 10 := hL d (List.mem_cons_self d L)
    have hL2 : ∀ x ∈ L, x < 10 := fun x hx => hL x (List.mem_cons_of_mem d hx)
    rw [List.map_cons, List.reverse_cons, uval_append, ih a hL2]
    rw [uval_cons, uval_nil, dval_digitChar d hd, Nat.ofDigits_cons]
    simp only [List.length_cons, pow_succ]
    ring

/-- The textual form of `v` has numeric value `v`. -/
theorem uval_natDecimal (v : Nat) : uval 0 (natDecimal v) = v := by
  unfold natDecimal
  by_cases h : v = 0
  · simp [h]; decide
  · simp only [h, if_false]
    rw [uval_digits (Nat.digits 10 v) 0 (fun d hd => Nat.digits_lt_base (by norm_num) hd)]
    simp [Nat.ofDigits_digits]

/-- C8: for every sized integer type with a digit-run decode rule (the
unsigned rule with maximum `mx`, the signed rule with range `mn..mxs`),
a numeral whose value exceeds the range fails with kind `Digit` — overflow is
detected inside the digit run, never wrapped. -/
theorem integer_overflow_digit_error (mx : Nat) (mn mxs : Int) (s rest : List Char)
    (hs : s ≠ []) (hd : allDigits s = true) :
    (mx < uval 0 s → uintParse mx (s ++ rest) = .fail (.error ⟨s ++ rest, .digit⟩)) ∧
    (0 ≤ mxs → mxs < ((uval 0 s : Nat) : Int) →
      signedParse mn mxs (s ++ rest) = .fail (.error ⟨s ++ rest, .digit⟩)) ∧
    (mn ≤ 0 → -((uval 0 s : Nat) : Int) < mn →
      signedParse mn mxs ('-' :: (s ++ rest)) = .fail (.error ⟨'-' :: (s ++ rest), .digit⟩)) := by
  obtain ⟨c, cs, rfl⟩ : ∃ c cs, s = c :: cs := by
    cases s with
    | nil => exact absurd rfl hs
    | cons c cs => exact ⟨c, cs, rfl⟩
  obtain ⟨hc, _⟩ := allDigits_cons hd
  refine ⟨?_, ?_, ?_⟩
  · intro hover
    unfold uintParse
    rw [if_neg (by simp)]
    exact uintGo_overflow mx ((c :: cs) ++ rest) (c :: cs) rest 0 0 hd (Nat.zero_le mx) hover
  · intro hpos hover
    have hcast : ivalp 0 (c :: cs) = ((uval 0 (c :: cs) : Nat) : Int) := by
      simpa using ivalp_natCast (c :: cs) 0
    unfold signedParse
    rw [List.cons_append, signParse_headDigit c (cs ++ rest) hc]
    simp only [List.length_cons, Nat.succ_ne_zero, if_false, if_true]
    exact sintPos_overflow mxs (c :: (cs ++ rest)) (c :: cs) rest 0 0 hd le_rfl hpos
      (by rw [hcast]; exact hover)
  · intro hneg hover
    have hcast : ivalp 0 (c :: cs) = ((uval 0 (c :: cs) : Nat) : Int) := by
      simpa using ivalp_natCast (c :: cs) 0
    have hval : ivaln 0 (c :: cs) = -((uval 0 (c :: cs) : Nat) : Int) := by
      rw [ivaln_eq_neg_ivalp, neg_zero, hcast]
    unfold signedParse
    have hsgn : signParse ('-' :: ((c :: cs) ++ rest)) = ((c :: cs) ++ rest, false) := by
      simp [signParse]
    rw [hsgn]
    simp only [List.cons_append, List.length_cons, Nat.succ_ne_zero, if_false,
      Bool.false_eq_true]
    exact sintNeg_overflow mn ('-' :: (c :: (cs ++ rest))) (c :: cs) rest 0 0 hd le_rfl hneg
      (by rw [hval]; exact hover)

/-- Witness for C8 at the repository's own overflow test input (`u16::MAX`
followed by two extra digits), for the u16 range and the i16 range in both
signs. -/
theorem integer_overflow_digit_error_witness :
    uintParse 65535 ("6553500".toList) = .fail (.error ⟨"6553500".toList, .digit⟩) ∧
    signedParse (-32768) 32767 ("6553500".toList) = .fail (.error ⟨"6553500".toList, .digit⟩) ∧
    signedParse (-32768) 32767 ('-' :: "6553500".toList) =
      .fail (.error ⟨'-' :: "6553500".toList, .digit⟩) := by
  have h := integer_overflow_digit_error 65535 (-32768) 32767 ("6553500".toList) []
    (by decide) (by decide)
  refine ⟨?_, ?_, ?_⟩
  · simpa using h.1 (by decide)
  · simpa using h.2.1 (by decide) (by decide)
  · simpa using h.2.2 (by decide) (by decide)

/-- Round trip of the unsigned rule on the exact textual form of an in-range
value. -/
theorem uintParse_natDecimal (mx v : Nat) (h : v ≤ mx) :
    uintParse mx (natDecimal v) = .ok [] v := by
  unfold uintParse
  rw [if_neg (by simp [List.length_eq_zero, natDecimal_ne_nil v])]
  have := uintGo_exact mx (natDecimal v) (natDecimal v) 0 0 (allDigits_natDecimal v)
    (by rw [uval_natDecimal]; exact h)
  rw [uval_natDecimal] at this
  exact this

/-- Round trip of the signed rule on the exact textual form of an in-range
value. -/
theorem signedParse_intDecimal (mn mx v : Int) (h1 : mn ≤ v) (h2 : v ≤ mx) :
    signedParse mn mx (intDecimal v) = .ok [] v := by
  unfold intDecimal
  by_cases hv : v < 0
  · rw [if_pos hv]
    have hne := natDecimal_ne_nil v.natAbs
    have hd := allDigits_natDecimal v.natAbs
    have hcast : ivalp 0 (natDecimal v.natAbs) = ((v.natAbs : Nat) : Int) := by
      have := ivalp_natCast (natDecimal v.natAbs) 0
      rw [uval_natDecimal] at this
      simpa using this
    have hval : ivaln 0 (natDecimal v.natAbs) = v := by
      rw [ivaln_eq_neg_ivalp, neg_zero, hcast]
      omega
    unfold signedParse
    have hsgn : signParse ('-' :: natDecimal v.natAbs) = (natDecimal v.natAbs, false) := by
      simp [signParse]
    rw [hsgn]
    simp only [Bool.false_eq_true, if_false]
    rw [if_neg (by simp [List.length_eq_zero, hne])]
    have := sintNeg_exact mn ('-' :: natDecimal v.natAbs) (natDecimal v.natAbs) 0 0 hd le_rfl
      (by rw [hval]; exact h1)
    rw [hval] at this
    exact this
  · rw [if_neg hv]
    have hne := natDecimal_ne_nil v.toNat
    have hd := allDigits_natDecimal v.toNat
    obtain ⟨c, cs, hnd⟩ : ∃ c cs, natDecimal v.toNat = c :: cs := by
      cases hx : natDecimal v.toNat with
      | nil => exact absurd hx hne
      | cons c cs => exact ⟨c, cs, rfl⟩
    have hc : c.isDigit = true := by
      have := allDigits_natDecimal v.toNat
      rw [hnd] at this
      exact (allDigits_cons this).1
    have hcast : ivalp 0 (natDecimal v.toNat) = v := by
      have := ivalp_natCast (natDecimal v.toNat) 0
      rw [uval_natDecimal] at this
      simpa [Int.toNat_of_nonneg (by omega : (0 : Int) ≤ v)] using this
    unfold signedParse
    rw [hnd, signParse_headDigit c cs hc]
    simp only [List.length_cons, Nat.succ_ne_zero, if_false, if_true]
    have := sintPos_exact mx (c :: cs) (c :: cs) 0 0 (hnd ▸ hd) le_rfl
      (by rw [← hnd, hcast]; exact h2)
    rw [show ivalp 0 (c :: cs) = v from hnd ▸ hcast] at this
    exact this

/-- C4 (amended): the textual round trip holds for every integer type whose
decode rule is the digit-run parser — the unsigned rule with any maximum
`mxU` (u16/u32/u64/u128) and the signed rule with any range `mn..mx`
(i8/i16/i32/i64/i128) — for every in-range value. It does not hold for `u8`,
whose decode rule reads one raw byte (see the counterexample). -/
theorem int_textual_roundtrip_amended (mxU vU : Nat) (mn mx v : Int)
    (hU : vU ≤ mxU) (h1 : mn ≤ v) (h2 : v ≤ mx) :
    parse_complete (uintParse mxU) (natDecimal vU) = .ok vU ∧
    parse_complete (signedParse mn mx) (intDecimal v) = .ok v := by
  constructor
  · simp [parse_complete, uintParse_natDecimal mxU vU hU]
  · simp [parse_complete, signedParse_intDecimal mn mx v h1 h2]

/-- Witness for C4 at the u16 maximum and the i8 minimum. -/
theorem int_textual_roundtrip_amended_witness :
    parse_complete (uintParse 65535) (natDecimal 65535) = .ok 65535 ∧
    parse_complete (signedParse (-128) 127) (intDecimal (-128)) = .ok (-128) :=
  int_textual_roundtrip_amended 65535 65535 (-128) 127 (-128) (by decide) (by decide) (by decide)

theorem listSome_mapSome {β : Type} (vs : List β) : listSome (vs.map some) = some vs := by
  induction vs with
  | nil => rfl
  | cons v vs ih => simp [listSome, ih]

/-- Cleaning up the first `i` slots when exactly the first `i` slots are
initialized drops exactly those `i` values, in slot order, and is free of
undefined behaviour. -/
theorem cleanupDrops_prefix {β : Type} (vs : List β) (r : List (Option β)) :
    cleanupDrops (vs.map some ++ r) vs.length = some vs := by
  unfold cleanupDrops
  rw [show vs.length = (vs.map some).length by simp, List.take_left]
  exact listSome_mapSome vs

theorem set_append_cons {γ : Type} (l1 : List γ) (a b : γ) (l2 : List γ) :
    (l1 ++ a :: l2).set l1.length b = l1 ++ b :: l2 := by
  induction l1 with
  | nil => rfl
  | cons x xs ih => simp [List.set, ih]

/-- The slot loop of `arrayParse`, started with exactly the slots below `i`
initialized to the values decoded so far, agrees with the specification
trace: on success the collected values are appended, on failure the cleanup
drops exactly the initialized values and the original error is kept. -/
theorem arrLoop_eq_spec {β : Type} (elemP : List Char → PResult (List Char) β) :
    ∀ (j : Nat) (vs : List β) (input : List Char),
      arrLoop elemP (vs.map some ++ List.replicate j none) vs.length j input =
        (match specArrayLoop elemP j input with
         | .ok rest ws => .ok rest (vs ++ ws)
         | .fail ws e => .fail e (vs ++ ws)
         | .panic => .panic) := by
  intro j
  induction j with
  | zero =>
    intro vs input
    simp [arrLoop, specArrayLoop, listSome_mapSome]
  | succ j ih =>
    intro vs input
    cases hsep : sepParse input with
    | panic => simp [arrLoop, specArrayLoop, hsep]
    | fail e => simp [arrLoop, specArrayLoop, hsep, cleanupDrops_prefix]
    | ok r1 u =>
      cases helem : elemP r1 with
      | panic => simp [arrLoop, specArrayLoop, hsep, helem]
      | fail e => simp [arrLoop, specArrayLoop, hsep, helem, cleanupDrops_prefix]
      | ok rest v =>
        have hset : (vs.map some ++ List.replicate (j + 1) (none : Option β)).set
            vs.length (some v) = (vs ++ [v]).map some ++ List.replicate j none := by
          rw [List.replicate_succ]
          rw [show vs.length = (vs.map some).length by simp]
          rw [set_append_cons]
          simp
        have hlen : vs.length + 1 = (vs ++ [v]).length := by simp
        simp only [arrLoop, specArrayLoop, hsep, helem]
        rw [hset, hlen, ih (vs ++ [v]) rest]
        cases hrun : specArrayLoop elemP j rest <;> simp

/-- Refinement between the `[T; N]` decode rule and the specification trace
of the aggregate grammar: the implementation returns exactly what the trace
prescribes — the same success, or the same error with the already decoded
values as the destroyed ones — and never reaches undefined behaviour. -/
theorem arrayParse_eq_spec {β : Type} (elemP : List Char → PResult (List Char) β)
    (N : Nat) (input : List Char) :
    arrayParse elemP N input =
      (match specArrayRun elemP N input with
       | .ok rest ws => .ok rest ws
       | .fail ws e => .fail e ws
       | .panic => .panic) := by
  cases N with
  | zero => rfl
  | succ m =>
    cases helem : elemP input with
    | panic => simp [arrayParse, specArrayRun, helem]
    | fail e => simp [arrayParse, specArrayRun, helem]
    | ok rest v =>
      have hslots : (List.replicate (m + 1) (none : Option β)).set 0 (some v)
          = [v].map some ++ List.replicate m none := by
        rw [List.replicate_succ]
        rfl
      have h := arrLoop_eq_spec elemP m [v] rest
      simp only [List.map_cons, List.map_nil, List.singleton_append, List.length_cons,
        List.length_nil, List.length_singleton] at h
      simp only [arrayParse, specArrayRun, helem]
      rw [hslots]
      simp only [List.map_cons, List.map_nil, List.singleton_append]
      rw [h]
      cases hrun : specArrayLoop elemP m rest <;> simp

theorem specArrayLoop_ok_length {β : Type} (elemP : List Char → PResult (List Char) β) :
    ∀ (j : Nat) (input rest : List Char) (ws : List β),
      specArrayLoop elemP j input = .ok rest ws → ws.length = j := by
  intro j
  induction j with
  | zero =>
    intro input rest ws h
    injection h with h1 h2
    rw [← h2]
    rfl
  | succ j ih =>
    intro input rest ws h
    simp only [specArrayLoop] at h
    cases hsep : sepParse input with
    | panic => simp [hsep] at h
    | fail e => simp [hsep] at h
    | ok r1 u =>
      simp only [hsep] at h
      cases helem : elemP r1 with
      | panic => simp [helem] at h
      | fail e => simp [helem] at h
      | ok r2 v =>
        simp only [helem] at h
        cases hrun : specArrayLoop elemP j r2 with
        | panic => simp [hrun] at h
        | fail ws2 e2 => simp [hrun] at h
        | ok r3 ws2 =>
          simp only [hrun] at h
          injection h with h1 h2
          rw [← h2]
          simp [ih _ _ _ hrun]

theorem specArrayRun_ok_length {β : Type} (elemP : List Char → PResult (List Char) β)
    (N : Nat) (input rest : List Char) (ws : List β)
    (h : specArrayRun elemP N input = .ok rest ws) : ws.length = N := by
  cases N with
  | zero =>
    injection h with h1 h2
    rw [← h2]
    rfl
  | succ m =>
    simp only [specArrayRun] at h
    cases helem : elemP input with
    | panic => simp [helem] at h
    | fail e2 => simp [helem] at h
    | ok r2 v =>
      simp only [helem] at h
      cases hrun : specArrayLoop elemP m r2 with
      | panic => simp [hrun] at h
      | fail ws2 e2 => simp [hrun] at h
      | ok r3 ws2 =>
        simp only [hrun] at h
        injection h with h1 h2
        rw [← h2]
        simp [specArrayLoop_ok_length elemP m _ _ _ hrun]

/-- C1: when the specification trace of the fixed-size aggregate fails after
decoding exactly the values `vals` (the elements already constructed in
slots `0..i`), the decoder destroys exactly those values in slot order —
never the element at the failing index, which was never constructed — hits
no undefined behaviour (no leak, no double drop), propagates the original
error unchanged, and returns no partial aggregate. -/
theorem array_failure_cleanup_exact {β : Type} (elemP : List Char → PResult (List Char) β)
    (N : Nat) (input : List Char) (vals : List β) (e : NomErr (List Char))
    (h : specArrayRun elemP N input = .fail vals e) :
    arrayParse elemP N input = .fail e vals := by
  rw [arrayParse_eq_spec elemP N input, h]

/-- Witness for C1 at the specification's own example: a 5-element integer
aggregate over `"1, 2, x, 4, 5"` fails with kind `Digit` at the third
element and destroys exactly the two already-constructed elements. -/
theorem array_failure_cleanup_exact_witness :
    arrayParse (uintParse 4294967295) 5 ("1, 2, x, 4, 5".toList) =
      .fail (.error ⟨"x, 4, 5".toList, .digit⟩) [1, 2] :=
  array_failure_cleanup_exact (uintParse 4294967295) 5 ("1, 2, x, 4, 5".toList) [1, 2]
    (.error ⟨"x, 4, 5".toList, .digit⟩) (by decide)

/-- C5: a success of the `[T; N]` decoder is exactly a success of the
specification grammar — element 0 decoded directly with no leading
separator, each element `i` in `1..N` preceded by the separator grammar
(horizontal whitespace, comma, horizontal whitespace) — and yields the `N`
decoded elements in order. -/
theorem array_success_grammar {β : Type} (elemP : List Char → PResult (List Char) β)
    (N : Nat) (input rest : List Char) (vals : List β)
    (h : arrayParse elemP N input = .ok rest vals) :
    specArrayRun elemP N input = .ok rest vals ∧ vals.length = N := by
  have heq := arrayParse_eq_spec elemP N input
  rw [h] at heq
  cases hr : specArrayRun elemP N input with
  | ok r w =>
    rw [hr] at heq
    injection heq with h1 h2
    rw [h1, h2]
    exact ⟨rfl, h2 ▸ specArrayRun_ok_length elemP N input r w hr⟩
  | fail w e =>
    rw [hr] at heq
    exact absurd heq (by simp)
  | panic =>
    rw [hr] at heq
    exact absurd heq (by simp)

/-- Witness for C5 at the specification's example: a 5-element integer
aggregate over `"1, 2, 3, 4, 5"` yields `[1, 2, 3, 4, 5]` consuming
everything. -/
theorem array_success_grammar_witness :
    specArrayRun (uintParse 4294967295) 5 ("1, 2, 3, 4, 5".toList) = .ok [] [1, 2, 3, 4, 5] ∧
    ([1, 2, 3, 4, 5] : List Nat).length = 5 :=
  array_success_grammar (uintParse 4294967295) 5 ("1, 2, 3, 4, 5".toList) [] [1, 2, 3, 4, 5]
    (by decide)

/-- C3 (amended): the fixed-size aggregate propagates every element or
separator failure verbatim with its construction aborted; the
separator-delimited containers (`Vec`, `HashSet`, `HashMap`) propagate
verbatim only fatal (`Failure`) errors — a recoverable element or separator
error instead ends the repetition successfully with the entries decoded so
far, as `separated_list0` prescribes. -/
theorem container_error_propagation_amended {β κ ν : Type} [DecidableEq β] [DecidableEq κ]
    (elemP : List Char → PResult (List Char) β)
    (kP : List Char → PResult (List Char) κ) (vP : List Char → PResult (List Char) ν)
    (N fuel : Nat) (input r1 : List Char) (acc vals : List β)
    (e : NomErr (List Char)) (pe : PError (List Char)) :
    (specArrayRun elemP N input = .fail vals e → arrayParse elemP N input = .fail e vals) ∧
    (elemP input = .fail (.failure pe) →
      vecParse elemP input = .fail (.failure pe) ∧
      hashSetParse elemP input = .fail (.failure pe)) ∧
    (kP input = .fail (.failure pe) → hashMapParse kP vP input = .fail (.failure pe)) ∧
    (elemP input = .fail (.error pe) → vecParse elemP input = .ok input []) ∧
    (lineEnding input = .ok r1 () → elemP r1 = .fail (.error pe) →
      sepLoop lineEnding elemP (fuel + 1) acc input = .ok input acc) ∧
    (lineEnding input = .ok r1 () → elemP r1 = .fail (.failure pe) →
      sepLoop lineEnding elemP (fuel + 1) acc input = .fail (.failure pe)) := by
  refine ⟨?_, ?_, ?_, ?_, ?_, ?_⟩
  · intro h
    rw [arrayParse_eq_spec elemP N input, h]
  · intro h
    constructor
    · simp [vecParse, separatedList0, h]
    · simp [hashSetParse, separatedList0, h]
  · intro h
    simp [hashMapParse, separatedList0, pairParse, h]
  · intro h
    simp [vecParse, separatedList0, h]
  · intro hsep helem
    simp [sepLoop, hsep, helem]
  · intro hsep helem
    simp [sepLoop, hsep, helem]

/-- Witness for C3 exercising every conjunct at concrete inputs: aggregate
propagation, fatal propagation through all three containers, and recoverable
errors ending the repetition at the first element and mid-loop. -/
theorem container_error_propagation_amended_witness :
    arrayParse (uintParse 9) 2 ("7, x".toList) = .fail (.error ⟨"x".toList, .digit⟩) [7] ∧
    vecParse (fun l => (.fail (.failure ⟨l, .digit⟩) : PResult (List Char) Nat)) ("5".toList) =
      .fail (.failure ⟨"5".toList, .digit⟩) ∧
    hashSetParse (fun l => (.fail (.failure ⟨l, .digit⟩) : PResult (List Char) Nat))
      ("5".toList) = .fail (.failure ⟨"5".toList, .digit⟩) ∧
    hashMapParse (fun l => (.fail (.failure ⟨l, .digit⟩) : PResult (List Char) Char))
      (uintParse 9) ("5".toList) = .fail (.failure ⟨"5".toList, .digit⟩) ∧
    vecParse (uintParse 9) ("x".toList) = .ok ("x".toList) [] ∧
    sepLoop lineEnding (uintParse 9) 1 [7] ("\nx".toList) = .ok ("\nx".toList) [7] ∧
    sepLoop lineEnding (fun l => (.fail (.failure ⟨l, .eof⟩) : PResult (List Char) Nat)) 1 []
      ("\nq".toList) = .fail (.failure ⟨"q".toList, .eof⟩) := by
  refine ⟨?_, ?_, ?_, ?_, ?_, ?_, ?_⟩
  · exact (container_error_propagation_amended (uintParse 9) (uintParse 9) (uintParse 9)
      2 0 ("7, x".toList) [] [] [7] (.error ⟨"x".toList, .digit⟩) ⟨[], .eof⟩).1 (by decide)
  · exact ((container_error_propagation_amended
      (fun l => (.fail (.failure ⟨l, .digit⟩) : PResult (List Char) Nat))
      (uintParse 9) (uintParse 9) 0 0 ("5".toList) [] [] []
      .incomplete ⟨"5".toList, .digit⟩).2.1 (by decide)).1
  · exact ((container_error_propagation_amended
      (fun l => (.fail (.failure ⟨l, .digit⟩) : PResult (List Char) Nat))
      (uintParse 9) (uintParse 9) 0 0 ("5".toList) [] [] []
      .incomplete ⟨"5".toList, .digit⟩).2.1 (by decide)).2
  · exact (container_error_propagation_amended (uintParse 9)
      (fun l => (.fail (.failure ⟨l, .digit⟩) : PResult (List Char) Char)) (uintParse 9)
      0 0 ("5".toList) [] [] [] .incomplete ⟨"5".toList, .digit⟩).2.2.1 (by decide)
  · exact (container_error_propagation_amended (uintParse 9) (uintParse 9) (uintParse 9)
      0 0 ("x".toList) [] [] [] .incomplete ⟨"x".toList, .digit⟩).2.2.2.1 (by decide)
  · exact (container_error_propagation_amended (uintParse 9) (uintParse 9) (uintParse 9)
      0 0 ("\nx".toList) ("x".toList) [7] [] .incomplete
      ⟨"x".toList, .digit⟩).2.2.2.2.1 (by decide) (by decide)
  · exact (container_error_propagation_amended
      (fun l => (.fail (.failure ⟨l, .eof⟩) : PResult (List Char) Nat))
      (uintParse 9) (uintParse 9) 0 0 ("\nq".toList) ("q".toList) [] []
      .incomplete ⟨"q".toList, .eof⟩).2.2.2.2.2 (by decide) (by decide)

end NomParseTrait
